import Mathlib

/-!
Shallow embedding of the phone-number → vCard conversion pipeline of
`beta.py` (functions `format_number`, `remove_duplicates`, `list_txt_files`,
`plan_outputs`, `hapus_semua_cache_cmd`), together with theorems settling
the specification claims about it.

Modelling conventions:
* Python strings are Lean `String`s; most work happens on `List Char`.
* `re.search(r"\+?\d{3,}", raw)` is embedded by `searchToken`, a left-to-right
  scan that at each position matches an optional `'+'` followed by a maximal
  run of consecutive ASCII digits of length ≥ 3 (Python's leftmost-greedy
  semantics for this pattern; `\d` is modelled as ASCII digits).
* The country segmentation patterns all have the shape
  `(\+CC)(\d{a,b})…(\d{c,d})` with no end anchor; `matchSpecs` embeds
  Python's greedy matching with backtracking for that shape: a group of
  digit-groups matches iff the sum of the minima fits into the leading digit
  run, and greedy matching gives each group the longest feasible width
  (`min cap (avail - minima of the remaining groups)`), exactly the result
  regex backtracking produces for digit-only groups without an end anchor.
* The filesystem is explicit data: a source folder is a list of
  `(filename, lines)` pairs, the output directory is the list of paths that
  already exist in it; `plan_outputs` raising `ValueError` is `Except.error`.
-/

/-- Model of Python `str.strip()`: drop whitespace from both ends. -/
def pyStrip (cs : List Char) : List Char :=
  ((cs.dropWhile Char.isWhitespace).reverse.dropWhile Char.isWhitespace).reverse

/-- Maximal leading run of ASCII digits (the greedy `\d{3,}` core). -/
def digitRun : List Char → List Char
  | [] => []
  | c :: cs => if c.isDigit then c :: digitRun cs else []

/-- Embedding of `re.search(r"\+?\d{3,}", raw)` (beta.py line 28): scan left
to right; at a `'+'` match the digit run after it, at a digit match the run
from here; succeed when the run has length ≥ 3. -/
def searchToken : List Char → Option (List Char)
  | [] => none
  | c :: cs =>
    if c = '+' then
      if 3 ≤ (digitRun cs).length then some ('+' :: digitRun cs)
      else searchToken cs
    else if c.isDigit then
      if 3 ≤ (digitRun (c :: cs)).length then some (digitRun (c :: cs))
      else searchToken cs
    else searchToken cs

/-- The prefix-rewriting chain of beta.py lines 33-38 (`startswith "00"`,
`startswith "0"`, `startswith "+"`). -/
def normalizeCC (cc : List Char) (token : List Char) : List Char :=
  if token.take 2 = ['0', '0'] then '+' :: token.drop 2
  else if token.take 1 = ['0'] then cc ++ token.drop 1
  else if token.take 1 = ['+'] then token
  else '+' :: token

/-- One `(\d{lo,hi})` group of a country pattern; `hi = none` is `(\d+)`
(with `lo = 1`). -/
structure GroupSpec where
  lo : Nat
  hi : Option Nat
deriving DecidableEq, Repr

/-- Take exactly `n` digit characters from the front, returning them and the
rest; fails if a non-digit appears among the first `n` characters. -/
def grab : Nat → List Char → Option (List Char × List Char)
  | 0, cs => some ([], cs)
  | _ + 1, [] => none
  | n + 1, c :: cs =>
    if c.isDigit then
      match grab n cs with
      | some (g, r) => some (c :: g, r)
      | none => none
    else none

/-- Sum of the group minima. -/
def specsLo (specs : List GroupSpec) : Nat := (specs.map GroupSpec.lo).sum

/-- Greedy matching of a sequence of digit groups against the front of `cs`,
unanchored at the end: Python regex backtracking for `(\d{a,b})…` assigns
each group the longest width that still leaves the minima of the later
groups available inside the leading digit run. -/
def matchSpecs : List GroupSpec → List Char → Option (List (List Char))
  | [], _ => some []
  | s :: rest, cs =>
    let avail := (digitRun cs).length
    if s.lo + specsLo rest ≤ avail then
      let cap := match s.hi with
        | some h => h
        | none => avail
      let l := min cap (avail - specsLo rest)
      match grab l cs with
      | some (g, cs2) =>
        match matchSpecs rest cs2 with
        | some gs => some (g :: gs)
        | none => none
      | none => none
    else none

/-- The country pattern table of beta.py lines 44-57, in source order. -/
def patterns : List (List Char × List GroupSpec) :=
  [("+62".data,  [⟨3, some 4⟩, ⟨1, none⟩]),
   ("+852".data, [⟨4, some 4⟩, ⟨4, some 4⟩]),
   ("+60".data,  [⟨2, some 3⟩, ⟨1, none⟩]),
   ("+65".data,  [⟨4, some 4⟩, ⟨4, some 4⟩]),
   ("+91".data,  [⟨5, some 5⟩, ⟨5, some 5⟩]),
   ("+92".data,  [⟨3, some 4⟩, ⟨1, none⟩]),
   ("+880".data, [⟨3, some 4⟩, ⟨1, none⟩]),
   ("+966".data, [⟨3, some 3⟩, ⟨1, none⟩]),
   ("+971".data, [⟨2, some 3⟩, ⟨1, none⟩]),
   ("+63".data,  [⟨3, some 3⟩, ⟨1, none⟩]),
   ("+234".data, [⟨3, some 3⟩, ⟨1, none⟩]),
   ("+1".data,   [⟨3, some 3⟩, ⟨3, some 3⟩, ⟨4, some 4⟩])]

/-- Python `" ".join(groups)`. -/
def joinSp : List (List Char) → List Char
  | [] => []
  | [g] => g
  | g :: gs => g ++ ' ' :: joinSp gs

/-- The pattern-table loop of beta.py lines 58-64: the first code that is a
leading substring of the token is tried; on a pattern match the groups are
space-joined, otherwise (`break`) the token is returned unsegmented. -/
def segmentToken (token : List Char) : List Char :=
  match patterns.find? (fun cp => decide (token.take cp.1.length = cp.1)) with
  | some cp =>
    match matchSpecs cp.2 (token.drop cp.1.length) with
    | some gs => joinSp (cp.1 :: gs)
    | none => token
  | none => token

/-- beta.py lines 26-64, `format_number(raw, default_cc, min_len, max_len)`:
strip the line, find the first `\+?\d{3,}` token, rewrite its prefix, count
its digits against the bounds, then segment by the country table. -/
def format_number (default_cc : String) (min_len max_len : Nat)
    (raw : String) : Option String :=
  match searchToken (pyStrip raw.data) with
  | none => none
  | some tok =>
    if min_len ≤ ((normalizeCC default_cc.data tok).filter Char.isDigit).length ∧
        ((normalizeCC default_cc.data tok).filter Char.isDigit).length ≤ max_len
    then some (String.mk (segmentToken (normalizeCC default_cc.data tok)))
    else none

/-- Positional specification of the regex `\+?\d{3,}`: the greedy match
starting exactly at offset `j`, if any.  Used to state that `searchToken`
returns the leftmost match. -/
def tokenAt (cs : List Char) (j : Nat) : Option (List Char) :=
  let r := cs.drop j
  if r.take 1 = ['+'] then
    if 3 ≤ (digitRun (r.drop 1)).length then some ('+' :: digitRun (r.drop 1))
    else none
  else
    if 3 ≤ (digitRun r).length then some (digitRun r) else none

/-- Classifier for a group list whose last group is `(\d+)`: such a pattern
consumes the whole remaining digit run, a fixed-width pattern consumes
exactly the sum of its widths. -/
def lastUnbounded (specs : List GroupSpec) : Bool :=
  match specs.getLast? with
  | some s => s.hi.isNone
  | none => false

/-- The loop of beta.py lines 67-72: `seen` models the Python set (only
membership is ever used), `result` the output list. -/
def dedupGo (seen result : List String) : List String → List String
  | [] => result
  | num :: rest =>
    if num ∈ seen then dedupGo seen result rest
    else dedupGo (seen ++ [num]) (result ++ [num]) rest

/-- beta.py lines 66-72, `remove_duplicates(numbers)`. -/
def remove_duplicates (numbers : List String) : List String :=
  dedupGo [] [] numbers

/-- Modelled from the spec: "return the subsequence retaining only the first
occurrence of each distinct value, preserving original relative order" —
keep the head, then recursively keep the first occurrences of what remains
after deleting the later copies of the head. -/
def firstOccSpec : List String → List String
  | [] => []
  | x :: xs => x :: firstOccSpec (xs.filter (fun y => decide (y ≠ x)))
termination_by l => l.length
decreasing_by
  simp only [List.length_cons]
  exact Nat.lt_succ_of_le (List.length_filter_le _ _)

/-- The per-line body of the reading loop in beta.py lines 107-112: Python's
`if n:` treats both `None` and the empty string as a rejection. -/
def collectLines : List String → List String × Nat → List String × Nat
  | [], acc => acc
  | line :: rest, (ns, inv) =>
    match format_number "+62" 8 15 line with
    | some n => if n = "" then collectLines rest (ns, inv + 1)
                else collectLines rest (ns ++ [n], inv)
    | none => collectLines rest (ns, inv + 1)

/-- beta.py lines 103-112: read every line of every source file in order. -/
def gather (files : List (String × List String)) : List String × Nat :=
  files.foldl (fun acc f => collectLines f.2 acc) ([], 0)

/-- Does the file name end in ".txt" (the `glob("*.txt")` filter)? -/
def endsWithTxt (name : String) : Bool :=
  name.data.reverse.take 4 == ['t', 'x', 't', '.']

/-- Lexicographic comparison of path names (Python's path ordering). -/
def lexLe : List Char → List Char → Bool
  | [], _ => true
  | _ :: _, [] => false
  | a :: as, b :: bs =>
    if a < b then true
    else if b < a then false
    else lexLe as bs

/-- Insert a file into a name-sorted file list, before the first entry whose
name is not smaller (a stable insertion, as Python's `sorted` is stable). -/
def insertFile (f : String × List String) :
    List (String × List String) → List (String × List String)
  | [] => [f]
  | g :: gs => if lexLe f.1.data g.1.data then f :: g :: gs else g :: insertFile f gs

/-- Stable insertion sort by file name, modelling Python's `sorted`. -/
def sortFiles : List (String × List String) → List (String × List String)
  | [] => []
  | f :: fs => insertFile f (sortFiles fs)

/-- beta.py lines 74-75, `list_txt_files(folder)`: `sorted(glob("*.txt"))`,
on the explicit folder model (name, lines). -/
def list_txt_files (folder : List (String × List String)) :
    List (String × List String) :=
  sortFiles (folder.filter (fun f => endsWithTxt f.1))

/-- The batch loop of beta.py lines 119-126: `for idx in range(0, n, per)`,
slicing `all_numbers[idx:idx+per]`, naming batch `i` (1-based)
`"{base} {i}.vcf"` under `output_dir`, and recording a conflict when the
target path already exists.  The first argument is structural fuel; the
caller passes the list length, which always suffices because every
iteration consumes at least one element. -/
def planLoop (base out : String) (existing : List String) (per : Nat) :
    Nat → Nat → List String → List (List String × String) × List String
  | _, _, [] => ([], [])
  | 0, _, _ :: _ => ([], [])
  | fuel + 1, i, x :: xs =>
    ((((x :: xs).take per,
        out ++ "/" ++ (base ++ " " ++ toString i ++ ".vcf")) ::
      (planLoop base out existing per fuel (i + 1) (xs.drop (per - 1))).1),
     if (out ++ "/" ++ (base ++ " " ++ toString i ++ ".vcf")) ∈ existing then
       (out ++ "/" ++ (base ++ " " ++ toString i ++ ".vcf")) ::
         (planLoop base out existing per fuel (i + 1) (xs.drop (per - 1))).2
     else (planLoop base out existing per fuel (i + 1) (xs.drop (per - 1))).2)

/-- beta.py lines 93-127, `plan_outputs`: the `ValueError` raised on an empty
folder (and the one Python's `range` would raise on a zero step) become
`Except.error`; the result tuple is `(plan, total_contacts, conflicts,
invalid_count)`. -/
def plan_outputs (src_folder : List (String × List String))
    (base_file_name : String) (per_file : Nat) (output_dir : String)
    (existing : List String) :
    Except String (List (List String × String) × Nat × List String × Nat) :=
  let txt_files := list_txt_files src_folder
  if txt_files = [] then .error "Folder tidak berisi file .txt."
  else
    let gathered := gather txt_files
    let all_numbers := remove_duplicates gathered.1
    if all_numbers.length = 0 then .ok ([], 0, [], gathered.2)
    else if per_file = 0 then .error "range() arg 3 must not be zero"
    else
      let pc := planLoop base_file_name output_dir existing per_file
        all_numbers.length 1 all_numbers
      .ok (pc.1, all_numbers.length, pc.2, gathered.2)

/-- beta.py line 22. -/
def ADMIN_IDS : List Int := [123456789]

/-- beta.py lines 212-224, `hapus_semua_cache_cmd`: the sessions directory is
modelled as a list of `(name, is_dir)` entries; a non-admin caller gets the
refusal reply and the directory is untouched, an admin caller has every
directory entry removed and counted. -/
def hapus_semua_cache_cmd (user_id : Int) (entries : List (String × Bool)) :
    List (String × Bool) × String :=
  if user_id ∈ ADMIN_IDS then
    (entries.filter (fun e => !e.2),
     "🧹 Semua cache (" ++ toString (entries.filter (fun e => e.2)).length
       ++ " user) sudah dihapus dari server.")
  else
    (entries, "❌ Kamu tidak punya izin menjalankan perintah ini.")

/-! ### Basic lemmas about the character-level helpers -/

theorem dropWhile_eq_of_all {p : Char → Bool} :
    ∀ {cs : List Char}, (∀ c ∈ cs, p c = false) → cs.dropWhile p = cs
  | [], _ => rfl
  | c :: cs, h => by
    have hc : p c = false := h c (List.mem_cons_self c cs)
    simp [List.dropWhile, hc]

theorem pyStrip_eq_of_all {cs : List Char}
    (h : ∀ c ∈ cs, c.isWhitespace = false) : pyStrip cs = cs := by
  unfold pyStrip
  rw [dropWhile_eq_of_all h, dropWhile_eq_of_all, List.reverse_reverse]
  intro c hc
  exact h c (List.mem_reverse.mp hc)

theorem not_ws_of_isDigit {c : Char} (h : c.isDigit = true) :
    c.isWhitespace = false := by
  by_contra hw
  rw [Bool.not_eq_false] at hw
  have : ((c = ' ' ∨ c = '\t') ∨ c = '\r') ∨ c = '\n' := by
    simpa [Char.isWhitespace, Bool.or_eq_true, decide_eq_true_eq] using hw
  rcases this with ((h' | h') | h') | h' <;> subst h' <;> exact absurd h (by decide)

theorem digitRun_mem (cs : List Char) : ∀ c ∈ digitRun cs, c.isDigit = true := by
  induction cs with
  | nil => simp [digitRun]
  | cons c cs ih =>
    by_cases hd : c.isDigit
    · simp only [digitRun, if_pos hd]
      intro x hx
      rcases List.mem_cons.mp hx with rfl | h
      · exact hd
      · exact ih x h
    · simp [digitRun, hd]

theorem digitRun_eq_of_all : ∀ {cs : List Char},
    (∀ c ∈ cs, c.isDigit = true) → digitRun cs = cs
  | [], _ => rfl
  | c :: cs, h => by
    have hc : c.isDigit = true := h c (List.mem_cons_self c cs)
    simp only [digitRun, if_pos hc]
    exact congrArg (c :: ·) (digitRun_eq_of_all fun x hx => h x (List.mem_cons_of_mem c hx))

theorem searchToken_shape (cs : List Char) :
    ∀ tok, searchToken cs = some tok →
      ∃ ds, 3 ≤ ds.length ∧ (∀ c ∈ ds, c.isDigit = true) ∧
        (tok = '+' :: ds ∨ tok = ds) := by
  induction cs with
  | nil => intro tok h; simp [searchToken] at h
  | cons c cs ih =>
    intro tok h
    by_cases hp : c = '+'
    · subst hp
      rw [searchToken, if_pos rfl] at h
      by_cases h3 : 3 ≤ (digitRun cs).length
      · rw [if_pos h3] at h
        exact ⟨digitRun cs, h3, digitRun_mem cs, Or.inl (Option.some.inj h).symm⟩
      · rw [if_neg h3] at h
        exact ih tok h
    · by_cases hd : c.isDigit
      · rw [searchToken, if_neg hp, if_pos hd] at h
        by_cases h3 : 3 ≤ (digitRun (c :: cs)).length
        · rw [if_pos h3] at h
          exact ⟨digitRun (c :: cs), h3, digitRun_mem _,
            Or.inr (Option.some.inj h).symm⟩
        · rw [if_neg h3] at h
          exact ih tok h
      · rw [searchToken, if_neg hp, if_neg hd] at h
        exact ih tok h

/-! ### `searchToken` returns the leftmost `\+?\d{3,}` match -/

theorem tokenAt_succ (c : Char) (cs : List Char) (j : Nat) :
    tokenAt (c :: cs) (j + 1) = tokenAt cs j := rfl

theorem tokenAt_zero_cons (c : Char) (cs : List Char) :
    tokenAt (c :: cs) 0 =
      if c = '+' then
        (if 3 ≤ (digitRun cs).length then some ('+' :: digitRun cs) else none)
      else
        (if 3 ≤ (digitRun (c :: cs)).length then some (digitRun (c :: cs))
         else none) := by
  unfold tokenAt
  simp only [List.drop_zero, List.take_succ_cons, List.take_zero, List.drop_one,
    List.tail_cons]
  by_cases hp : c = '+'
  · subst hp; simp
  · rw [if_neg (by simpa using hp), if_neg hp]

theorem tokenAt_nil (j : Nat) : tokenAt [] j = none := by
  unfold tokenAt
  simp [List.drop_nil, digitRun]

theorem searchToken_leftmost (cs : List Char) :
    ∀ tok, searchToken cs = some tok →
      ∃ j, tokenAt cs j = some tok ∧ ∀ i, i < j → tokenAt cs i = none := by
  induction cs with
  | nil => intro tok h; simp [searchToken] at h
  | cons c cs ih =>
    intro tok h
    by_cases hp : c = '+'
    · subst hp
      rw [searchToken, if_pos rfl] at h
      by_cases h3 : 3 ≤ (digitRun cs).length
      · rw [if_pos h3] at h
        refine ⟨0, ?_, fun i hi => absurd hi (Nat.not_lt_zero i)⟩
        rw [tokenAt_zero_cons, if_pos rfl, if_pos h3, h]
      · rw [if_neg h3] at h
        obtain ⟨j, hj, hlt⟩ := ih tok h
        refine ⟨j + 1, by rw [tokenAt_succ]; exact hj, ?_⟩
        intro i hi
        cases i with
        | zero => rw [tokenAt_zero_cons, if_pos rfl, if_neg h3]
        | succ i => rw [tokenAt_succ]; exact hlt i (Nat.lt_of_succ_lt_succ hi)
    · by_cases hd : c.isDigit
      · rw [searchToken, if_neg hp, if_pos hd] at h
        by_cases h3 : 3 ≤ (digitRun (c :: cs)).length
        · rw [if_pos h3] at h
          refine ⟨0, ?_, fun i hi => absurd hi (Nat.not_lt_zero i)⟩
          rw [tokenAt_zero_cons, if_neg hp, if_pos h3, h]
        · rw [if_neg h3] at h
          obtain ⟨j, hj, hlt⟩ := ih tok h
          refine ⟨j + 1, by rw [tokenAt_succ]; exact hj, ?_⟩
          intro i hi
          cases i with
          | zero => rw [tokenAt_zero_cons, if_neg hp, if_neg h3]
          | succ i => rw [tokenAt_succ]; exact hlt i (Nat.lt_of_succ_lt_succ hi)
      · rw [searchToken, if_neg hp, if_neg hd] at h
        obtain ⟨j, hj, hlt⟩ := ih tok h
        have h3 : ¬ 3 ≤ (digitRun (c :: cs)).length := by
          simp [digitRun, hd]
        refine ⟨j + 1, by rw [tokenAt_succ]; exact hj, ?_⟩
        intro i hi
        cases i with
        | zero => rw [tokenAt_zero_cons, if_neg hp, if_neg h3]
        | succ i => rw [tokenAt_succ]; exact hlt i (Nat.lt_of_succ_lt_succ hi)

theorem searchToken_none (cs : List Char) (h : searchToken cs = none) :
    ∀ j, tokenAt cs j = none := by
  induction cs with
  | nil => intro j; exact tokenAt_nil j
  | cons c cs ih =>
    intro j
    by_cases hp : c = '+'
    · subst hp
      rw [searchToken, if_pos rfl] at h
      by_cases h3 : 3 ≤ (digitRun cs).length
      · rw [if_pos h3] at h; exact absurd h (by simp)
      · rw [if_neg h3] at h
        cases j with
        | zero => rw [tokenAt_zero_cons, if_pos rfl, if_neg h3]
        | succ j => rw [tokenAt_succ]; exact ih h j
    · by_cases hd : c.isDigit
      · rw [searchToken, if_neg hp, if_pos hd] at h
        by_cases h3 : 3 ≤ (digitRun (c :: cs)).length
        · rw [if_pos h3] at h; exact absurd h (by simp)
        · rw [if_neg h3] at h
          cases j with
          | zero => rw [tokenAt_zero_cons, if_neg hp, if_neg h3]
          | succ j => rw [tokenAt_succ]; exact ih h j
      · rw [searchToken, if_neg hp, if_neg hd] at h
        have h3 : ¬ 3 ≤ (digitRun (c :: cs)).length := by
          simp [digitRun, hd]
        cases j with
        | zero => rw [tokenAt_zero_cons, if_neg hp, if_neg h3]
        | succ j => rw [tokenAt_succ]; exact ih h j

/-! ### Shape of the prefix-rewritten token -/

theorem ne_plus_of_isDigit {c : Char} (h : c.isDigit = true) : c ≠ '+' := by
  intro he
  subst he
  exact absurd h (by decide)

theorem normalizeCC_shape {tok ds : List Char} (h3 : 3 ≤ ds.length)
    (hds : ∀ c ∈ ds, c.isDigit = true) (htok : tok = '+' :: ds ∨ tok = ds) :
    ∃ es, normalizeCC "+62".data tok = '+' :: es ∧ es ≠ [] ∧
      ∀ c ∈ es, c.isDigit = true := by
  rcases htok with rfl | rfl
  · refine ⟨ds, ?_, ?_, hds⟩
    · unfold normalizeCC
      rw [if_neg (by simp), if_neg (by simp), if_pos (by simp)]
    · intro he; subst he; simp at h3
  · rcases tok with _ | ⟨d1, _ | ⟨d2, _ | ⟨d3, ds'⟩⟩⟩ <;> try simp at h3
    have hd1 : d1.isDigit = true := hds d1 (by simp)
    have hd2 : d2.isDigit = true := hds d2 (by simp)
    by_cases h1 : d1 = '0'
    · subst h1
      by_cases h2 : d2 = '0'
      · subst h2
        refine ⟨d3 :: ds', ?_, by simp, ?_⟩
        · unfold normalizeCC
          rw [if_pos (by simp [List.take_succ_cons])]
          simp
        · intro c hc
          exact hds c (List.mem_cons_of_mem _ (List.mem_cons_of_mem _ hc))
      · refine ⟨'6' :: '2' :: d2 :: d3 :: ds', ?_, by simp, ?_⟩
        · unfold normalizeCC
          rw [if_neg (by simp [List.take_succ_cons, h2]),
            if_pos (by simp [List.take_succ_cons])]
          simp [String.data]
        · intro c hc
          rcases List.mem_cons.mp hc with rfl | hc
          · decide
          rcases List.mem_cons.mp hc with rfl | hc
          · decide
          · exact hds c (List.mem_cons_of_mem _ hc)
    · refine ⟨d1 :: d2 :: d3 :: ds', ?_, by simp, hds⟩
      unfold normalizeCC
      rw [if_neg (by simp [List.take_succ_cons, h1]),
        if_neg (by simp [List.take_succ_cons, h1]),
        if_neg (by simp [List.take_succ_cons, ne_plus_of_isDigit hd1])]

/-! ### Matching of the digit-group patterns -/

theorem normalizeCC_plus (cc : List Char) (es : List Char) :
    normalizeCC cc ('+' :: es) = '+' :: es := by
  unfold normalizeCC
  rw [if_neg (by simp), if_neg (by simp), if_pos (by simp)]

theorem filter_digits_of_all {es : List Char}
    (h : ∀ c ∈ es, c.isDigit = true) : es.filter Char.isDigit = es :=
  List.filter_eq_self.mpr h

theorem filter_digits_plus_cons (es : List Char) :
    ('+' :: es).filter Char.isDigit = es.filter Char.isDigit := by
  rw [List.filter_cons_of_neg]
  decide

theorem grab_eq : ∀ (n : Nat) (cs g r : List Char), grab n cs = some (g, r) →
    g ++ r = cs ∧ g.length = n ∧ ∀ c ∈ g, c.isDigit = true
  | 0, cs, g, r, h => by
    simp only [grab, Option.some.injEq, Prod.mk.injEq] at h
    obtain ⟨rfl, rfl⟩ := h
    exact ⟨rfl, rfl, by simp⟩
  | n + 1, [], g, r, h => by simp [grab] at h
  | n + 1, c :: cs, g, r, h => by
    by_cases hd : c.isDigit
    · rw [grab, if_pos hd] at h
      rcases hg : grab n cs with _ | ⟨g', r'⟩
      · rw [hg] at h; simp at h
      · rw [hg] at h
        simp only [Option.some.injEq, Prod.mk.injEq] at h
        obtain ⟨ha', hr'⟩ := h
        obtain ⟨ha, hl, hdig⟩ := grab_eq n cs g' r' hg
        subst ha'; subst hr'
        refine ⟨by rw [List.cons_append, ha], by simp [hl], ?_⟩
        intro x hx
        rcases List.mem_cons.mp hx with rfl | hx
        · exact hd
        · exact hdig x hx
    · rw [grab, if_neg hd] at h
      simp at h

theorem grab_of_le : ∀ {cs : List Char}, (∀ c ∈ cs, c.isDigit = true) →
    ∀ {n : Nat}, n ≤ cs.length → grab n cs = some (cs.take n, cs.drop n)
  | cs, _, 0, _ => by simp [grab]
  | [], _, n + 1, hn => by simp at hn
  | c :: cs, hds, n + 1, hn => by
    have hc : c.isDigit = true := hds c (List.mem_cons_self c cs)
    rw [grab, if_pos hc,
      grab_of_le (fun x hx => hds x (List.mem_cons_of_mem c hx))
        (Nat.le_of_succ_le_succ hn)]
    simp

theorem matchSpecs_length : ∀ (specs : List GroupSpec) (cs : List Char)
    (gs : List (List Char)), matchSpecs specs cs = some gs →
    gs.length = specs.length := by
  intro specs
  induction specs with
  | nil =>
    intro cs gs h
    simp only [matchSpecs, Option.some.injEq] at h
    subst h; rfl
  | cons s rest ih =>
    intro cs gs h
    simp only [matchSpecs] at h
    split_ifs at h
    · split at h
      next g cs2 hg =>
        split at h
        next gs' hm =>
          simp only [Option.some.injEq] at h
          subst h
          simp [ih cs2 gs' hm]
        next hm => simp at h
      next hg => simp at h

theorem matchSpecs_consumed : ∀ (specs : List GroupSpec) (cs : List Char)
    (gs : List (List Char)), matchSpecs specs cs = some gs →
    (∀ g ∈ gs, ∀ c ∈ g, c.isDigit = true) ∧ ∃ r, gs.flatten ++ r = cs := by
  intro specs
  induction specs with
  | nil =>
    intro cs gs h
    simp only [matchSpecs, Option.some.injEq] at h
    subst h
    exact ⟨by simp, cs, by simp⟩
  | cons s rest ih =>
    intro cs gs h
    simp only [matchSpecs] at h
    split_ifs at h
    · split at h
      next g cs2 hg =>
        split at h
        next gs' hm =>
          simp only [Option.some.injEq] at h
          subst h
          obtain ⟨ha, _, hdig⟩ := grab_eq _ _ _ _ hg
          obtain ⟨hdig', r, hr⟩ := ih cs2 gs' hm
          refine ⟨?_, r, ?_⟩
          · intro g' hg' c hc
            rcases List.mem_cons.mp hg' with rfl | hg'
            · exact hdig c hc
            · exact hdig' g' hg' c hc
          · rw [List.flatten_cons, List.append_assoc, hr, ha]
        next hm => simp at h
      next hg => simp at h

theorem matchSpecs_lastUnbounded : ∀ (specs : List GroupSpec) (cs : List Char)
    (gs : List (List Char)), lastUnbounded specs = true →
    (∀ c ∈ cs, c.isDigit = true) → matchSpecs specs cs = some gs →
    gs.flatten = cs := by
  intro specs
  induction specs with
  | nil => intro cs gs hlu; simp [lastUnbounded] at hlu
  | cons s rest ih =>
    intro cs gs hlu hds h
    rcases rest with _ | ⟨s2, rest'⟩
    · have hhi : s.hi = none := by
        unfold lastUnbounded at hlu
        simp only [List.getLast?_singleton] at hlu
        exact Option.isNone_iff_eq_none.mp hlu
      simp only [matchSpecs, hhi, specsLo, List.map_nil, List.sum_nil,
        Nat.add_zero, Nat.sub_zero, min_self] at h
      rw [digitRun_eq_of_all hds] at h
      split_ifs at h with hfeas
      rw [grab_of_le hds (Nat.le_refl _)] at h
      simp only [List.take_length, List.drop_length, matchSpecs,
        Option.some.injEq] at h
      subst h
      simp
    · have hlu' : lastUnbounded (s2 :: rest') = true := by
        unfold lastUnbounded at hlu ⊢
        rw [List.getLast?_cons_cons] at hlu
        exact hlu
      simp only [matchSpecs] at h
      split_ifs at h with hfeas
      split at h
      next g cs2 hg =>
        split at h
        next gs' hm =>
          simp only [Option.some.injEq] at h
          subst h
          obtain ⟨ha, -, -⟩ := grab_eq _ _ _ _ hg
          have hds2 : ∀ c ∈ cs2, c.isDigit = true := by
            intro c hc
            exact hds c (ha ▸ List.mem_append_right g hc)
          rw [List.flatten_cons, ih cs2 gs' hlu' hds2 hm, ha]
        next hm => simp at h
      next hg => simp at h

theorem matchSpecs_fixed : ∀ (specs : List GroupSpec) (cs : List Char)
    (gs : List (List Char)), (∀ s ∈ specs, s.hi = some s.lo) →
    matchSpecs specs cs = some gs → gs.flatten.length = specsLo specs := by
  intro specs
  induction specs with
  | nil =>
    intro cs gs _ h
    simp only [matchSpecs, Option.some.injEq] at h
    subst h
    simp [specsLo]
  | cons s rest ih =>
    intro cs gs hfix h
    have hs : s.hi = some s.lo := hfix s (List.mem_cons_self s rest)
    simp only [matchSpecs, hs] at h
    split_ifs at h with hfeas
    split at h
    next g cs2 hg =>
      split at h
      next gs' hm =>
        simp only [Option.some.injEq] at h
        subst h
        obtain ⟨-, hl, -⟩ := grab_eq _ _ _ _ hg
        have hmin : min s.lo ((digitRun cs).length - specsLo rest) = s.lo := by
          omega
        rw [hmin] at hl
        have hrest := ih cs2 gs' (fun x hx => hfix x (List.mem_cons_of_mem s hx)) hm
        simp [List.flatten_cons, hl, hrest, specsLo]
      next hm => simp at h
    next hg => simp at h

theorem joinSp_filter : ∀ l : List (List Char),
    (joinSp l).filter Char.isDigit = (l.map (List.filter Char.isDigit)).flatten
  | [] => by simp [joinSp]
  | [g] => by simp [joinSp]
  | g :: g2 :: gs => by
    have h := joinSp_filter (g2 :: gs)
    simp only [joinSp, List.filter_append, List.map_cons, List.flatten_cons]
    rw [List.filter_cons_of_neg (by decide), h]
    simp

theorem joinSp_cons_shape (x : List Char) : ∀ xs : List (List Char),
    joinSp (x :: xs) = x ++ (if xs = [] then [] else ' ' :: joinSp xs)
  | [] => by simp [joinSp]
  | y :: ys => by simp [joinSp]

theorem patterns_facts : ∀ cp ∈ patterns, cp.1 ≠ [] ∧ cp.1.take 1 = ['+'] ∧
    (∀ c ∈ cp.1.drop 1, c.isDigit = true) ∧ cp.2 ≠ [] := by decide

theorem patterns_class : ∀ cp ∈ patterns,
    lastUnbounded cp.2 = true ∨
    ((∀ s ∈ cp.2, s.hi = some s.lo) ∧
      8 ≤ cp.1.length - 1 + specsLo cp.2 ∧ cp.1.length - 1 + specsLo cp.2 ≤ 15) := by
  decide

theorem segmentToken_cases (t : List Char) :
    segmentToken t = t ∨
    ∃ cp gs, cp ∈ patterns ∧ t.take cp.1.length = cp.1 ∧
      matchSpecs cp.2 (t.drop cp.1.length) = some gs ∧
      segmentToken t = joinSp (cp.1 :: gs) := by
  unfold segmentToken
  rcases hfind : patterns.find? (fun cp => decide (t.take cp.1.length = cp.1))
    with _ | cp
  · rw [hfind]; exact Or.inl rfl
  · rw [hfind]
    dsimp only
    have hmem := List.mem_of_find?_eq_some hfind
    have hp := List.find?_some hfind
    simp only [decide_eq_true_eq] at hp
    have htake : t.take cp.1.length = cp.1 := hp
    rcases hm : matchSpecs cp.2 (t.drop cp.1.length) with _ | gs
    · exact Or.inl rfl
    · exact Or.inr ⟨cp, gs, hmem, htake, hm, rfl⟩

theorem segmentToken_no_space (t : List Char) :
    segmentToken t = t ∨ ' ' ∈ segmentToken t := by
  rcases segmentToken_cases t with h | ⟨cp, gs, hmem, -, hm, heq⟩
  · exact Or.inl h
  · right
    rw [heq]
    have hlen := matchSpecs_length cp.2 _ gs hm
    rcases gs with _ | ⟨g, gs'⟩
    · exact absurd (List.length_eq_zero.mp hlen.symm)
        (patterns_facts cp hmem).2.2.2
    · simp [joinSp]

theorem segmentToken_analysis {es : List Char}
    (hes : ∀ c ∈ es, c.isDigit = true) :
    (segmentToken ('+' :: es)).take 1 = ['+'] ∧
    (∃ extra, (segmentToken ('+' :: es)).filter Char.isDigit ++ extra = es) ∧
    (8 ≤ es.length → es.length ≤ 15 →
      8 ≤ ((segmentToken ('+' :: es)).filter Char.isDigit).length ∧
      ((segmentToken ('+' :: es)).filter Char.isDigit).length ≤ 15) := by
  rcases segmentToken_cases ('+' :: es) with h | ⟨cp, gs, hmem, htake, hm, heq⟩
  · rw [h, filter_digits_plus_cons, filter_digits_of_all hes]
    exact ⟨by simp, ⟨[], List.append_nil es⟩, fun h8 h15 => ⟨h8, h15⟩⟩
  · obtain ⟨hne, htake1, hdig1, -⟩ := patterns_facts cp hmem
    obtain ⟨cds, hcp⟩ : ∃ cds, cp.1 = '+' :: cds := by
      rcases hcp1 : cp.1 with _ | ⟨c0, cr⟩
      · exact absurd hcp1 hne
      · refine ⟨cr, ?_⟩
        rw [hcp1] at htake1
        have : c0 = '+' := by simpa using htake1
        rw [this]
    have hcds : ∀ c ∈ cds, c.isDigit = true := by
      intro c hc
      apply hdig1
      rw [hcp]
      simpa using hc
    have hlen1 : cp.1.length = cds.length + 1 := by rw [hcp]; simp
    have htk : es.take cds.length = cds := by
      rw [hlen1, hcp] at htake
      simpa [List.take_succ_cons] using htake
    have hdrop : ('+' :: es).drop cp.1.length = es.drop cds.length := by
      rw [hlen1]
      simp
    rw [hdrop] at hm
    obtain ⟨hgdig, r, hr⟩ := matchSpecs_consumed cp.2 _ gs hm
    have hmapgs : gs.map (List.filter Char.isDigit) = gs := by
      have h1 : gs.map (List.filter Char.isDigit) = gs.map id := by
        apply List.map_congr_left
        intro g hg
        exact filter_digits_of_all (hgdig g hg)
      rw [h1, List.map_id]
    have hfil : (segmentToken ('+' :: es)).filter Char.isDigit =
        cds ++ gs.flatten := by
      rw [heq, joinSp_filter, List.map_cons, List.flatten_cons, hcp,
        filter_digits_plus_cons, filter_digits_of_all hcds, hmapgs]
    have hre : cds ++ es.drop cds.length = es := by
      conv_rhs => rw [← List.take_append_drop cds.length es]
      rw [htk]
    have hhead : (segmentToken ('+' :: es)).take 1 = ['+'] := by
      rw [heq, joinSp_cons_shape, hcp]
      simp
    refine ⟨hhead, ⟨r, ?_⟩, fun h8 h15 => ?_⟩
    · rw [hfil, List.append_assoc, hr]
      exact hre
    · rw [hfil]
      rcases patterns_class cp hmem with hun | ⟨hfix, hlo, hhi⟩
      · have hdigdrop : ∀ c ∈ es.drop cds.length, c.isDigit = true := by
          intro c hc
          exact hes c (List.mem_of_mem_drop hc)
        have hall := matchSpecs_lastUnbounded cp.2 _ gs hun hdigdrop hm
        rw [hall, hre]
        exact ⟨h8, h15⟩
      · have hflen := matchSpecs_fixed cp.2 _ gs hfix hm
        rw [List.length_append, hflen]
        have hc : cds.length = cp.1.length - 1 := by rw [hlen1]; simp
        constructor <;> omega

/-! ### Dissection of a successful `format_number` run -/

theorem format_number_some {raw out : String}
    (h : format_number "+62" 8 15 raw = some out) :
    ∃ tok es, searchToken (pyStrip raw.data) = some tok ∧
      normalizeCC "+62".data tok = '+' :: es ∧
      (∀ c ∈ es, c.isDigit = true) ∧ 8 ≤ es.length ∧ es.length ≤ 15 ∧
      out.data = segmentToken ('+' :: es) := by
  unfold format_number at h
  rcases hst : searchToken (pyStrip raw.data) with _ | tok
  · rw [hst] at h; exact absurd h (by simp)
  · rw [hst] at h
    dsimp only at h
    obtain ⟨ds, h3, hds, htok⟩ := searchToken_shape _ tok hst
    obtain ⟨es, hecc, -, hes⟩ := normalizeCC_shape h3 hds htok
    rw [hecc, filter_digits_plus_cons, filter_digits_of_all hes] at h
    split_ifs at h with hb
    simp only [Option.some.injEq] at h
    exact ⟨tok, es, rfl, hecc, hes, hb.1, hb.2, by rw [← h]⟩

/-! ### Claim theorems -/

/-- C1 counterexample: normalization is not idempotent on all accepted
inputs.  The accepted line "08112223333" normalizes to the segmented
canonical value "+62 8112 223333", but re-running the normalizer on that
canonical value rejects it (its first token, "8112", is too short), so
`normalize (normalize x) ≠ normalize x`. -/
theorem format_number_not_idempotent :
    format_number "+62" 8 15 "08112223333" = some "+62 8112 223333" ∧
    format_number "+62" 8 15 "+62 8112 223333" = none :=
  ⟨by decide, by decide⟩

/-- C1 (amended): normalization is idempotent on every accepted input whose
canonical output is unsegmented (contains no space, i.e. the country table
did not match); segmented outputs are rejected on re-normalization. -/
theorem format_number_idem_unsegmented (x y : String)
    (hx : format_number "+62" 8 15 x = some y)
    (hns : ∀ c ∈ y.data, c ≠ ' ') :
    format_number "+62" 8 15 y = some y := by
  obtain ⟨tok, es, -, -, hes, h8, h15, hyd⟩ := format_number_some hx
  have hseg : segmentToken ('+' :: es) = '+' :: es := by
    rcases segmentToken_no_space ('+' :: es) with h | h
    · exact h
    · exact absurd rfl (hns ' ' (by rw [hyd]; exact h))
  have hyd' : y.data = '+' :: es := by rw [hyd, hseg]
  have hstrip : pyStrip y.data = y.data := by
    apply pyStrip_eq_of_all
    intro c hc
    rw [hyd'] at hc
    rcases List.mem_cons.mp hc with rfl | hc
    · decide
    · exact not_ws_of_isDigit (hes c hc)
  have hrun : digitRun es = es := digitRun_eq_of_all hes
  have hsearch : searchToken (pyStrip y.data) = some ('+' :: es) := by
    rw [hstrip, hyd', searchToken, if_pos rfl, if_pos (by rw [hrun]; omega), hrun]
  unfold format_number
  rw [hsearch]
  dsimp only
  rw [normalizeCC_plus, filter_digits_plus_cons, filter_digits_of_all hes,
    if_pos ⟨h8, h15⟩, hseg, ← hyd']

/-- C1 witness: a concrete unsegmented canonical value is a fixed point of
the normalizer. -/
theorem format_number_idem_unsegmented_witness :
    format_number "+62" 8 15 "+79261234567" = some "+79261234567" :=
  format_number_idem_unsegmented "+79261234567" "+79261234567"
    (by decide) (by decide)

/-- C2 counterexample: a token's digits are never "mixed with arbitrary
punctuation": the regex `\+?\d{3,}` stops at the first non-digit, so on
"0811-222-3333" only "0811" is selected (although the whole line holds 11
digits, inside the configured 8–15 bounds) and the line is rejected, while
the same digits without punctuation are accepted. -/
theorem format_number_token_stops_at_punctuation :
    searchToken (pyStrip ("0811-222-3333" : String).data) =
      some ['0', '8', '1', '1'] ∧
    (("0811-222-3333" : String).data.filter Char.isDigit).length = 11 ∧
    format_number "+62" 8 15 "0811-222-3333" = none ∧
    format_number "+62" 8 15 "08112223333" = some "+62 8112 223333" :=
  ⟨by decide, by decide, by decide, by decide⟩

/-- C2 (amended): the Number Normalizer selects the leftmost token consisting
of an optional leading `'+'` followed by a maximal run of 3 or more
consecutive digits (punctuation ends a token rather than being absorbed);
if no position of the line carries such a token the line is rejected, and
an accepted token is rejected exactly when its digit count after prefix
rewriting falls outside the configured 8–15 bounds. -/
theorem format_number_token_selection (raw : String) :
    (∀ tok, searchToken (pyStrip raw.data) = some tok →
      ∃ j, tokenAt (pyStrip raw.data) j = some tok ∧
        ∀ i, i < j → tokenAt (pyStrip raw.data) i = none) ∧
    ((∀ j, tokenAt (pyStrip raw.data) j = none) →
      format_number "+62" 8 15 raw = none) ∧
    (∀ tok, searchToken (pyStrip raw.data) = some tok →
      (format_number "+62" 8 15 raw = none ↔
        ¬(8 ≤ ((normalizeCC "+62".data tok).filter Char.isDigit).length ∧
          ((normalizeCC "+62".data tok).filter Char.isDigit).length ≤ 15))) := by
  refine ⟨fun tok h => searchToken_leftmost _ tok h, ?_, ?_⟩
  · intro hall
    rcases hst : searchToken (pyStrip raw.data) with _ | tok
    · unfold format_number; rw [hst]
    · obtain ⟨j, hj, -⟩ := searchToken_leftmost _ tok hst
      rw [hall j] at hj
      exact absurd hj (by simp)
  · intro tok hst
    unfold format_number
    rw [hst]
    dsimp only
    constructor
    · intro h hb
      rw [if_pos hb] at h
      exact absurd h (by simp)
    · intro hb
      rw [if_neg hb]

/-- C2 witness: on "0811-222-3333" the selected token is exactly the first
digit run "0811", a leftmost match of `\+?\d{3,}`. -/
theorem format_number_token_selection_witness :
    ∃ j, tokenAt (pyStrip ("0811-222-3333" : String).data) j =
        some ['0', '8', '1', '1'] ∧
      ∀ i, i < j → tokenAt (pyStrip ("0811-222-3333" : String).data) i = none :=
  (format_number_token_selection "0811-222-3333").1 ['0', '8', '1', '1']
    (by decide)

/-- C3 counterexample: segmentation can lose digits.  The accepted token
"+1234567890123" (13 digits, within bounds) matches the fixed-width `+1`
pattern, whose groups only consume 10 digits after the country code; the
canonical output "+1 234 567 8901" has dropped the trailing "23". -/
theorem format_number_drops_digits :
    format_number "+62" 8 15 "+1234567890123" = some "+1 234 567 8901" ∧
    ¬(("+1 234 567 8901" : String).data.filter Char.isDigit =
      ("+1234567890123" : String).data.filter Char.isDigit) :=
  ⟨by decide, by decide⟩

/-- C3 (amended): the digit sequence of the canonical output is an initial
segment of the digit sequence of the validated token — digits are never
reordered or invented, and they are lost only as a dropped tail (which
happens exactly when a fixed-width country pattern consumes fewer digits
than the token carries, e.g. a `+1` token with 12–15 digits). -/
theorem format_number_digits_preserved_up_to_tail (x y : String)
    (h : format_number "+62" 8 15 x = some y) :
    ∃ tok extra, searchToken (pyStrip x.data) = some tok ∧
      y.data.filter Char.isDigit ++ extra =
        (normalizeCC "+62".data tok).filter Char.isDigit := by
  obtain ⟨tok, es, hst, hecc, hes, -, -, hyd⟩ := format_number_some h
  obtain ⟨-, ⟨extra, hpre⟩, -⟩ := segmentToken_analysis hes
  refine ⟨tok, extra, hst, ?_⟩
  rw [hyd, hecc, filter_digits_plus_cons, filter_digits_of_all hes]
  exact hpre

/-- C3 witness: concrete instance of the digit-preservation theorem on an
accepted input. -/
theorem format_number_digits_preserved_witness :
    ∃ tok extra, searchToken (pyStrip ("08112223333" : String).data) =
        some tok ∧
      ("+62 8112 223333" : String).data.filter Char.isDigit ++ extra =
        (normalizeCC "+62".data tok).filter Char.isDigit :=
  format_number_digits_preserved_up_to_tail "08112223333" "+62 8112 223333"
    (by decide)

/-- C10: every canonical number the Normalizer emits (at the program's
configuration: default country `+62`, bounds 8–15) starts with `'+'` and
carries between 8 and 15 digits inclusive, even when a fixed-width country
pattern consumed only part of the token's digits. -/
theorem format_number_canonical_bounds (x y : String)
    (h : format_number "+62" 8 15 x = some y) :
    y.data.take 1 = ['+'] ∧
    8 ≤ (y.data.filter Char.isDigit).length ∧
    (y.data.filter Char.isDigit).length ≤ 15 := by
  obtain ⟨tok, es, -, -, hes, h8, h15, hyd⟩ := format_number_some h
  obtain ⟨hhead, -, hbounds⟩ := segmentToken_analysis hes
  rw [hyd]
  exact ⟨hhead, hbounds h8 h15⟩

/-- C10 witness: the truncated `+1` canonical output still lies inside the
digit bounds and starts with `'+'`. -/
theorem format_number_canonical_bounds_witness :
    ("+1 234 567 8901" : String).data.take 1 = ['+'] ∧
    8 ≤ (("+1 234 567 8901" : String).data.filter Char.isDigit).length ∧
    (("+1 234 567 8901" : String).data.filter Char.isDigit).length ≤ 15 :=
  format_number_canonical_bounds "+1234567890123" "+1 234 567 8901"
    (by decide)

/-! ### Deduplication -/

theorem dedupGo_spec : ∀ (l seen res : List String),
    dedupGo seen res l =
      res ++ firstOccSpec (l.filter (fun x => decide (x ∉ seen))) := by
  intro l
  induction l with
  | nil => intro seen res; simp [dedupGo, firstOccSpec]
  | cons num rest ih =>
    intro seen res
    by_cases hmem : num ∈ seen
    · rw [dedupGo, if_pos hmem, ih]
      congr 2
      rw [List.filter_cons]
      simp [hmem]
    · rw [dedupGo, if_neg hmem, ih]
      have hcons : (num :: rest).filter (fun x => decide (x ∉ seen)) =
          num :: rest.filter (fun x => decide (x ∉ seen)) := by
        rw [List.filter_cons]
        simp [hmem]
      have hff : (rest.filter (fun x => decide (x ∉ seen))).filter
            (fun y => decide (y ≠ num)) =
          rest.filter (fun x => decide (x ∉ seen ++ [num])) := by
        rw [List.filter_filter]
        apply List.filter_congr
        intro x _
        by_cases h1 : x ∈ seen <;> by_cases h2 : x = num <;>
          simp [h1, h2, List.mem_append]
      rw [hcons, firstOccSpec, hff]
      simp

theorem remove_duplicates_eq_firstOccSpec (l : List String) :
    remove_duplicates l = firstOccSpec l := by
  unfold remove_duplicates
  rw [dedupGo_spec]
  simp

theorem firstOccSpec_mem : ∀ (n : Nat) (l : List String), l.length ≤ n →
    ∀ a, a ∈ firstOccSpec l → a ∈ l := by
  intro n
  induction n with
  | zero =>
    intro l hl a ha
    rw [Nat.le_zero, List.length_eq_zero] at hl
    subst hl
    simp [firstOccSpec] at ha
  | succ n ih =>
    intro l hl a ha
    rcases l with _ | ⟨x, xs⟩
    · simp [firstOccSpec] at ha
    · rw [firstOccSpec] at ha
      rcases List.mem_cons.mp ha with rfl | ha
      · exact List.mem_cons_self _ _
      · have hlen : (xs.filter (fun y => decide (y ≠ x))).length ≤ n := by
          have := List.length_filter_le (fun y => decide (y ≠ x)) xs
          simp only [List.length_cons] at hl
          omega
        have := ih _ hlen a ha
        exact List.mem_cons_of_mem x (List.mem_of_mem_filter this)

theorem firstOccSpec_complete : ∀ (n : Nat) (l : List String), l.length ≤ n →
    ∀ a ∈ l, a ∈ firstOccSpec l := by
  intro n
  induction n with
  | zero =>
    intro l hl a ha
    rw [Nat.le_zero, List.length_eq_zero] at hl
    subst hl
    simp at ha
  | succ n ih =>
    intro l hl a ha
    rcases l with _ | ⟨x, xs⟩
    · simp at ha
    · rw [firstOccSpec]
      by_cases hax : a = x
      · subst hax; exact List.mem_cons_self _ _
      · rcases List.mem_cons.mp ha with rfl | ha
        · exact absurd rfl hax
        · have hlen : (xs.filter (fun y => decide (y ≠ x))).length ≤ n := by
            have := List.length_filter_le (fun y => decide (y ≠ x)) xs
            simp only [List.length_cons] at hl
            omega
          refine List.mem_cons_of_mem x (ih _ hlen a ?_)
          exact List.mem_filter.mpr ⟨ha, by simp [hax]⟩

theorem firstOccSpec_sublist : ∀ (n : Nat) (l : List String), l.length ≤ n →
    (firstOccSpec l).Sublist l := by
  intro n
  induction n with
  | zero =>
    intro l hl
    rw [Nat.le_zero, List.length_eq_zero] at hl
    subst hl
    simp [firstOccSpec]
  | succ n ih =>
    intro l hl
    rcases l with _ | ⟨x, xs⟩
    · simp [firstOccSpec]
    · rw [firstOccSpec]
      refine List.Sublist.cons₂ x ?_
      have hlen : (xs.filter (fun y => decide (y ≠ x))).length ≤ n := by
        have := List.length_filter_le (fun y => decide (y ≠ x)) xs
        simp only [List.length_cons] at hl
        omega
      exact (ih _ hlen).trans (List.filter_sublist xs)

theorem firstOccSpec_nodup : ∀ (n : Nat) (l : List String), l.length ≤ n →
    (firstOccSpec l).Nodup := by
  intro n
  induction n with
  | zero =>
    intro l hl
    rw [Nat.le_zero, List.length_eq_zero] at hl
    subst hl
    simp [firstOccSpec]
  | succ n ih =>
    intro l hl
    rcases l with _ | ⟨x, xs⟩
    · simp [firstOccSpec]
    · rw [firstOccSpec]
      have hlen : (xs.filter (fun y => decide (y ≠ x))).length ≤ n := by
        have := List.length_filter_le (fun y => decide (y ≠ x)) xs
        simp only [List.length_cons] at hl
        omega
      refine List.nodup_cons.mpr ⟨?_, ih _ hlen⟩
      intro hx
      have := firstOccSpec_mem _ _ hlen x hx
      have := (List.mem_filter.mp this).2
      simp at this

/-- C5: the Deduplicator returns exactly the subsequence of first
occurrences: it equals the specification function that keeps each value's
first occurrence and deletes the later copies, it is a subsequence of its
input (so relative order is preserved), it has no duplicates, and it keeps
exactly the values of the input. -/
theorem remove_duplicates_spec (l : List String) :
    remove_duplicates l = firstOccSpec l ∧
    (remove_duplicates l).Sublist l ∧
    (remove_duplicates l).Nodup ∧
    (∀ a, a ∈ remove_duplicates l ↔ a ∈ l) := by
  refine ⟨remove_duplicates_eq_firstOccSpec l, ?_, ?_, ?_⟩ <;>
    rw [remove_duplicates_eq_firstOccSpec l]
  · exact firstOccSpec_sublist l.length l (Nat.le_refl _)
  · exact firstOccSpec_nodup l.length l (Nat.le_refl _)
  · intro a
    exact ⟨firstOccSpec_mem l.length l (Nat.le_refl _) a,
      firstOccSpec_complete l.length l (Nat.le_refl _) a⟩

/-- C4 counterexample: the spec's ordering example does not produce two
canonical values — the normalize-then-deduplicate pipeline over the three
example lines produces the empty sequence, because every line is rejected
(its first token carries only 5 digits, under the 8-digit minimum). -/
theorem pipeline_example_yields_nothing :
    remove_duplicates (collectLines
      ["0811 111 1111", "+62811 111 1111", "0811 222 2222"] ([], 0)).1 = [] := by
  decide

/-- C4 (amended): with default country `+62`, each of the three example
lines is rejected by the Normalizer (the first `\+?\d{3,}` token is
"0811" resp. "+62811", i.e. 5 digits after prefix rewriting, below the
8-digit minimum), so the pipeline collects zero canonical values and counts
3 invalid lines. -/
theorem pipeline_example_all_rejected :
    format_number "+62" 8 15 "0811 111 1111" = none ∧
    format_number "+62" 8 15 "+62811 111 1111" = none ∧
    format_number "+62" 8 15 "0811 222 2222" = none ∧
    collectLines ["0811 111 1111", "+62811 111 1111", "0811 222 2222"]
      ([], 0) = ([], 3) :=
  ⟨by decide, by decide, by decide, by decide⟩

/-! ### The batch-planning loop -/

theorem planLoop_nil (base out : String) (ex : List String) (per fuel i : Nat) :
    planLoop base out ex per fuel i [] = ([], []) := by
  cases fuel <;> rfl

theorem planLoop_cons (base out : String) (ex : List String)
    (per fuel i : Nat) (x : String) (xs : List String) :
    planLoop base out ex per (fuel + 1) i (x :: xs) =
      (((x :: xs).take per,
          out ++ "/" ++ (base ++ " " ++ toString i ++ ".vcf")) ::
        (planLoop base out ex per fuel (i + 1) (xs.drop (per - 1))).1,
       if (out ++ "/" ++ (base ++ " " ++ toString i ++ ".vcf")) ∈ ex then
         (out ++ "/" ++ (base ++ " " ++ toString i ++ ".vcf")) ::
           (planLoop base out ex per fuel (i + 1) (xs.drop (per - 1))).2
       else (planLoop base out ex per fuel (i + 1) (xs.drop (per - 1))).2) :=
  rfl

theorem planLoop_props (base out : String) (ex : List String) (k : Nat) :
    ∀ (n : Nat) (l : List String), l.length ≤ n → ∀ (i : Nat),
    (((planLoop base out ex (k + 1) n i l).1.map Prod.fst).flatten = l) ∧
    ((planLoop base out ex (k + 1) n i l).1 = [] ↔ l = []) ∧
    (∀ b ∈ (planLoop base out ex (k + 1) n i l).1,
      b.1 ≠ [] ∧ b.1.length ≤ k + 1) ∧
    ((planLoop base out ex (k + 1) n i l).1.map Prod.snd =
      (List.range' i (planLoop base out ex (k + 1) n i l).1.length).map
        (fun j => out ++ "/" ++ (base ++ " " ++ toString j ++ ".vcf"))) ∧
    (∀ b ∈ (planLoop base out ex (k + 1) n i l).1.dropLast,
      b.1.length = k + 1) := by
  intro n
  induction n with
  | zero =>
    intro l hl i
    rw [Nat.le_zero, List.length_eq_zero] at hl
    subst hl
    rw [planLoop_nil]
    exact ⟨rfl, by simp, by simp, by simp, by simp⟩
  | succ n ih =>
    intro l hl i
    rcases l with _ | ⟨x, xs⟩
    · rw [planLoop_nil]
      exact ⟨rfl, by simp, by simp, by simp, by simp⟩
    · rw [planLoop_cons]
      simp only [Nat.add_sub_cancel]
      have hlen2 : (xs.drop k).length ≤ n := by
        simp only [List.length_drop, List.length_cons] at hl ⊢
        omega
      obtain ⟨ih1, ih2, ih3, ih4, ih5⟩ := ih (xs.drop k) hlen2 (i + 1)
      have hdrop : xs.drop k = (x :: xs).drop (k + 1) := by simp
      refine ⟨?_, by simp, ?_, ?_, ?_⟩
      · simp only [List.map_cons, List.flatten_cons]
        rw [ih1, hdrop]
        exact List.take_append_drop (k + 1) (x :: xs)
      · intro b hb
        rcases List.mem_cons.mp hb with rfl | hb
        · constructor
          · simp [List.take_succ_cons]
          · simp
        · exact ih3 b hb
      · simp only [List.map_cons, List.length_cons, List.range'_succ, ih4]
      · intro b hb
        rcases hrp : (planLoop base out ex (k + 1) n (i + 1) (xs.drop k)).1
          with _ | ⟨e, es2⟩
        · rw [hrp] at hb
          simp at hb
        · rw [hrp, List.dropLast_cons₂] at hb
          rcases List.mem_cons.mp hb with rfl | hb2
          · have hxs : xs.drop k ≠ [] := by
              intro he
              rw [ih2.mpr he] at hrp
              exact absurd hrp.symm (List.cons_ne_nil e es2)
            have hklt : k < xs.length := by
              by_contra hk
              exact hxs (List.drop_eq_nil_of_le (by omega))
            simp only [List.length_take, List.length_cons]
            omega
          · exact ih5 b (by rw [hrp]; exact hb2)

theorem planLoop_conflicts (base out : String) (ex : List String) (per : Nat) :
    ∀ (n : Nat) (l : List String), l.length ≤ n → ∀ i,
    (planLoop base out ex per n i l).2 =
      ((planLoop base out ex per n i l).1.map Prod.snd).filter
        (fun p => decide (p ∈ ex)) := by
  intro n
  induction n with
  | zero =>
    intro l hl i
    rw [Nat.le_zero, List.length_eq_zero] at hl
    subst hl
    rw [planLoop_nil]
    rfl
  | succ n ih =>
    intro l hl i
    rcases l with _ | ⟨x, xs⟩
    · rw [planLoop_nil]; rfl
    · rw [planLoop_cons]
      have hlen2 : (xs.drop (per - 1)).length ≤ n := by
        simp only [List.length_drop, List.length_cons] at hl ⊢
        omega
      by_cases hp : (out ++ "/" ++ (base ++ " " ++ toString i ++ ".vcf")) ∈ ex
      · rw [if_pos hp]
        simp only [List.map_cons, List.filter_cons]
        rw [if_pos (by simpa using hp)]
        rw [ih (xs.drop (per - 1)) hlen2 (i + 1)]
      · rw [if_neg hp]
        simp only [List.map_cons, List.filter_cons]
        rw [if_neg (by simpa using hp)]
        rw [ih (xs.drop (per - 1)) hlen2 (i + 1)]

theorem planLoop_plan_indep (base out : String) (ex1 ex2 : List String)
    (per : Nat) : ∀ (n : Nat) (l : List String), l.length ≤ n → ∀ i,
    (planLoop base out ex1 per n i l).1 =
      (planLoop base out ex2 per n i l).1 := by
  intro n
  induction n with
  | zero =>
    intro l hl i
    rw [Nat.le_zero, List.length_eq_zero] at hl
    subst hl
    rw [planLoop_nil, planLoop_nil]
  | succ n ih =>
    intro l hl i
    rcases l with _ | ⟨x, xs⟩
    · rw [planLoop_nil, planLoop_nil]
    · rw [planLoop_cons, planLoop_cons]
      have hlen2 : (xs.drop (per - 1)).length ≤ n := by
        simp only [List.length_drop, List.length_cons] at hl ⊢
        omega
      simp only [ih (xs.drop (per - 1)) hlen2 (i + 1)]

/-- C6: for every non-empty sequence and positive capacity, the batch loop
partitions the sequence into contiguous batches that concatenate back to
it; every batch is non-empty with at most `per_file` elements, every batch
except the final one has exactly `per_file` elements, and the batches are
targeted, in partition order, at `"{out}/{base} {i}.vcf"` for `i = 1, 2, …`
(so capacity 2 over 5 numbers gives batches of sizes 2, 2, 1 at
`"{base} 1.vcf"`, `"{base} 2.vcf"`, `"{base} 3.vcf"`). -/
theorem planLoop_partitions (base out : String) (ex : List String)
    (per : Nat) (l : List String) (hper : 0 < per) (hne : l ≠ []) :
    (((planLoop base out ex per l.length 1 l).1.map Prod.fst).flatten = l) ∧
    (planLoop base out ex per l.length 1 l).1 ≠ [] ∧
    (∀ b ∈ (planLoop base out ex per l.length 1 l).1,
      b.1 ≠ [] ∧ b.1.length ≤ per) ∧
    (∀ b ∈ (planLoop base out ex per l.length 1 l).1.dropLast,
      b.1.length = per) ∧
    ((planLoop base out ex per l.length 1 l).1.map Prod.snd =
      (List.range' 1 (planLoop base out ex per l.length 1 l).1.length).map
        (fun j => out ++ "/" ++ (base ++ " " ++ toString j ++ ".vcf"))) := by
  obtain ⟨k, rfl⟩ : ∃ k, per = k + 1 := ⟨per - 1, by omega⟩
  obtain ⟨h1, h2, h3, h4, h5⟩ :=
    planLoop_props base out ex k l.length l (Nat.le_refl _) 1
  exact ⟨h1, fun he => hne (h2.mp he), h3, h5, h4⟩

/-- C6 witness: capacity 2 over the 5-element example sequence — the batch
contents concatenate back to the input and the targets are the 1-indexed
`"{base} {i}.vcf"` paths. -/
theorem planLoop_partitions_witness :
    (((planLoop "Kontak" "out" [] 2 5 1 ["a", "b", "c", "d", "e"]).1.map
        Prod.fst).flatten = ["a", "b", "c", "d", "e"]) ∧
    ((planLoop "Kontak" "out" [] 2 5 1 ["a", "b", "c", "d", "e"]).1.map
        Prod.snd =
      (List.range' 1 (planLoop "Kontak" "out" [] 2 5 1
          ["a", "b", "c", "d", "e"]).1.length).map
        (fun j => "out" ++ "/" ++ ("Kontak" ++ " " ++ toString j ++ ".vcf"))) :=
  ⟨(planLoop_partitions "Kontak" "out" [] 2 ["a", "b", "c", "d", "e"]
      (by decide) (by decide)).1,
   (planLoop_partitions "Kontak" "out" [] 2 ["a", "b", "c", "d", "e"]
      (by decide) (by decide)).2.2.2.2⟩

/-- C7: with a positive capacity, the Batch Planner fails exactly when
there is no eligible `.txt` source file (the `ValueError` of beta.py line
101, raised before any line is read); when source files exist it always
returns a plan, and when additionally every line is rejected it returns
the empty plan with total 0, empty conflict set and the rejected-line
count — so "no input files" and "no valid numbers" are distinguishable. -/
theorem plan_outputs_input_absent (src : List (String × List String))
    (base : String) (per : Nat) (out : String) (ex : List String)
    (hper : 0 < per) :
    (list_txt_files src = [] →
      plan_outputs src base per out ex =
        .error "Folder tidak berisi file .txt.") ∧
    (list_txt_files src ≠ [] →
      ∃ r, plan_outputs src base per out ex = .ok r) ∧
    (list_txt_files src ≠ [] → (gather (list_txt_files src)).1 = [] →
      plan_outputs src base per out ex =
        .ok ([], 0, [], (gather (list_txt_files src)).2)) := by
  refine ⟨fun hempty => ?_, fun hne => ?_, fun hne hgath => ?_⟩
  · simp only [plan_outputs]
    rw [if_pos hempty]
  · simp only [plan_outputs]
    rw [if_neg hne]
    by_cases hz : (remove_duplicates (gather (list_txt_files src)).1).length = 0
    · rw [if_pos hz]
      exact ⟨_, rfl⟩
    · rw [if_neg hz, if_neg (by omega : ¬ per = 0)]
      exact ⟨_, rfl⟩
  · simp only [plan_outputs]
    have h0 : remove_duplicates (gather (list_txt_files src)).1 = [] := by
      rw [hgath]
      rfl
    rw [if_neg hne, h0]
    rw [if_pos (by simp)]

/-- C7 witness: one `.txt` file whose single line is rejected gives the
empty plan with total 0 and one invalid line, not an error. -/
theorem plan_outputs_input_absent_witness :
    plan_outputs [("a.txt", ["xyz"])] "Kontak" 1 "out" [] =
      .ok ([], 0, [], 1) :=
  (plan_outputs_input_absent [("a.txt", ["xyz"])] "Kontak" 1 "out" []
      (by decide)).2.2 (by decide) (by decide)

/-- C8: for a successful planning run, a path is recorded in the conflict
set iff it is one of the planned target paths and a file already exists at
it in the output directory, and the plan itself (with its total and
invalid count) does not depend on which paths already exist — a
conflicting path remains a write target, never skipped or renamed. -/
theorem plan_outputs_conflict_spec (src : List (String × List String))
    (base : String) (per : Nat) (out : String) (ex : List String)
    (plan : List (List String × String)) (total : Nat)
    (confl : List String) (inv : Nat)
    (h : plan_outputs src base per out ex = .ok (plan, total, confl, inv)) :
    (∀ p, p ∈ confl ↔ (p ∈ plan.map Prod.snd ∧ p ∈ ex)) ∧
    (∀ ex2, ∃ confl2, plan_outputs src base per out ex2 =
      .ok (plan, total, confl2, inv)) := by
  simp only [plan_outputs] at h
  by_cases hempty : list_txt_files src = []
  · rw [if_pos hempty] at h
    exact absurd h (by simp)
  · rw [if_neg hempty] at h
    by_cases hz : (remove_duplicates (gather (list_txt_files src)).1).length = 0
    · rw [if_pos hz] at h
      simp only [Except.ok.injEq, Prod.mk.injEq] at h
      obtain ⟨hplan, htotal, hconfl, hinv⟩ := h
      subst hplan; subst htotal; subst hconfl; subst hinv
      refine ⟨by simp, fun ex2 => ⟨[], ?_⟩⟩
      simp only [plan_outputs]
      rw [if_neg hempty, if_pos hz]
    · by_cases hp0 : per = 0
      · rw [if_neg hz, if_pos hp0] at h
        exact absurd h (by simp)
      · rw [if_neg hz, if_neg hp0] at h
        simp only [Except.ok.injEq, Prod.mk.injEq] at h
        obtain ⟨hplan, htotal, hconfl, hinv⟩ := h
        refine ⟨?_, fun ex2 => ?_⟩
        · intro p
          rw [← hconfl, ← hplan,
            planLoop_conflicts base out ex per _ _ (Nat.le_refl _) 1]
          simp [List.mem_filter]
        · refine ⟨(planLoop base out ex2 per
            (remove_duplicates (gather (list_txt_files src)).1).length 1
            (remove_duplicates (gather (list_txt_files src)).1)).2, ?_⟩
          simp only [plan_outputs]
          rw [if_neg hempty, if_neg hz, if_neg hp0, ← hplan, ← htotal, ← hinv,
            planLoop_plan_indep base out ex2 ex per _ _ (Nat.le_refl _) 1]

/-- C8 witness: pre-creating the planned path `"out/Kontak 1.vcf"` makes
exactly that path a conflict while it stays in the plan. -/
theorem plan_outputs_conflict_spec_witness :
    ("out/Kontak 1.vcf" ∈ (["out/Kontak 1.vcf"] : List String)) ↔
      ("out/Kontak 1.vcf" ∈
        ([(["+79261234567"], "out/Kontak 1.vcf")].map Prod.snd) ∧
       "out/Kontak 1.vcf" ∈ (["out/Kontak 1.vcf"] : List String)) :=
  (plan_outputs_conflict_spec [("a.txt", ["+79261234567"])] "Kontak" 1 "out"
      ["out/Kontak 1.vcf"] [(["+79261234567"], "out/Kontak 1.vcf")] 1
      ["out/Kontak 1.vcf"] 0 rfl).1 "out/Kontak 1.vcf"

/-- C9: when the global purge command is invoked by an identity not on the
admin allow-list, no session directory is removed — the directory listing
is returned unchanged and the caller only receives the refusal reply. -/
theorem hapus_semua_cache_non_admin (user_id : Int)
    (entries : List (String × Bool)) (h : user_id ∉ ADMIN_IDS) :
    (hapus_semua_cache_cmd user_id entries).1 = entries ∧
    (hapus_semua_cache_cmd user_id entries).2 =
      "❌ Kamu tidak punya izin menjalankan perintah ini." := by
  unfold hapus_semua_cache_cmd
  rw [if_neg h]
  exact ⟨rfl, rfl⟩

/-- C9 witness: a non-admin caller leaves two existing session directories
untouched. -/
theorem hapus_semua_cache_non_admin_witness :
    (hapus_semua_cache_cmd 5 [("42", true), ("99", true)]).1 =
      [("42", true), ("99", true)] ∧
    (hapus_semua_cache_cmd 5 [("42", true), ("99", true)]).2 =
      "❌ Kamu tidak punya izin menjalankan perintah ini." :=
  hapus_semua_cache_non_admin 5 [("42", true), ("99", true)] (by decide)
